import Mathlib

/-!
Verification of the rpccaps capability/RPC core against its specification.

The development shallowly embeds the Rust sources:
* `Capability` and its operations (`src/rpccaps/src/data/capability.rs`);
* `Reference`, `Certificate`, `Authorization`, chain signing and
  validation (`src/rpccaps/src/data/reference.rs`), parametrised over an
  abstract signature scheme;
* the length-prefixed bincode codec (`src/rpccaps/src/rpc/codec.rs`);
* the dispatch engine's handler map and id-frame peeling
  (`src/rpccaps/src/rpc/dispatch.rs`).

Machine integers (`u64`) are embedded as `Nat`: every operation used by the
code (`&`, and the subtraction in `is_subset`, whose subtrahend is always a
submask of the minuend) is overflow- and underflow-free on `u64`, so the
`Nat` semantics coincides with the Rust semantics on all `u64` inputs.
-/

/-! ## Capability (src/rpccaps/src/data/capability.rs) -/

structure Capability where
  actions : Nat
  share : Nat
deriving DecidableEq, Repr

namespace Capability

/-- Rust `Capability::new(actions, share)` — masks `share` by `actions`. -/
def new (actions share : Nat) : Capability :=
  { actions := actions, share := share &&& actions }

/-- Rust `Capability::empty()`. -/
def empty : Capability :=
  { actions := 0, share := 0 }

/-- Rust `Capability::subset(&self, actions, share)`: the raw arguments are first
normalised by `share ← share & actions`, then both components are masked by
`self.share`. -/
def subset (self : Capability) (actions share : Nat) : Capability :=
  { actions := self.share &&& actions, share := self.share &&& (share &&& actions) }

/-- Rust `Capability::subset_inplace(&mut self, actions, share)`: note the source
does NOT mask the raw `share` argument by `actions` here (unlike `subset`). -/
def subset_inplace (self : Capability) (actions share : Nat) : Capability :=
  { actions := self.share &&& actions, share := self.share &&& share }

/-- Rust `Capability::is_allowed`. -/
def is_allowed (self : Capability) (action : Nat) : Bool :=
  (self.actions &&& action) != 0

/-- Rust `Capability::is_shareable`. -/
def is_shareable (self : Capability) (action : Nat) : Bool :=
  (self.share &&& action) != 0

/-- Rust `Capability::is_empty`. -/
def is_empty (self : Capability) : Bool :=
  self.actions == 0 && self.share == 0

/-- Rust `Capability::is_valid`. -/
def is_valid (self : Capability) : Bool :=
  self.share == self.share &&& self.actions

/-- Rust `Capability::is_subset(&self, cap)`: `self` is a subset of `cap`. -/
def is_subset (self cap : Capability) : Bool :=
  (self.actions - (cap.share &&& cap.actions &&& self.actions) == 0) &&
  (self.share - (cap.share &&& self.share) == 0)

/-- Rust `impl BitAnd for Capability`: `a & b = a.subset(b.actions, b.share)`. -/
def bitand (self rhs : Capability) : Capability :=
  self.subset rhs.actions rhs.share

/-- Rust `impl BitAndAssign for Capability`:
`a &= b` is `a.subset_inplace(b.actions, b.share)`. -/
def bitand_assign (self rhs : Capability) : Capability :=
  self.subset_inplace rhs.actions rhs.share

end Capability

/-! ## Reference / Authorization chain (src/rpccaps/src/data/reference.rs) -/

/-- Decidable equality for `Except`, used to evaluate chain operations on
concrete inputs. -/
instance {ε α : Type} [DecidableEq ε] [DecidableEq α] : DecidableEq (Except ε α) := fun x y =>
  match x, y with
  | .ok a, .ok b =>
    if h : a = b then .isTrue (by rw [h]) else .isFalse (by intro hc; cases hc; exact h rfl)
  | .error a, .error b =>
    if h : a = b then .isTrue (by rw [h]) else .isFalse (by intro hc; cases hc; exact h rfl)
  | .ok _, .error _ => .isFalse (by intro hc; cases hc)
  | .error _, .ok _ => .isFalse (by intro hc; cases hc)

/-- Rust `reference::Error`; the payloads of `Serialize` and `Signature`
are abstracted away. -/
inductive RefError where
  | Empty | Capability | Issuer | Subject | MaxShare | Serialize | Signature
deriving DecidableEq, Repr

/-- Rust `Authorization<Sign>`. -/
structure Authorization (Verifier : Type) where
  capability : Capability
  subject : Verifier
deriving DecidableEq

/-- Rust `Certificate<Sign>`. -/
structure Certificate (Verifier Sig : Type) where
  auth : Authorization Verifier
  signature : Sig
deriving DecidableEq

/-- Rust `CertData<Id, Sign>`: the canonical signature payload. -/
inductive CertData (Id Verifier Sig : Type) where
  | reference : Authorization Verifier → Id → Verifier → Nat → CertData Id Verifier Sig
  | signature : Authorization Verifier → Sig → CertData Id Verifier Sig
deriving DecidableEq

/-- Rust `Reference<Id, Sign>`. `max_share` is a `u32`, embedded as `Nat`
(only compared and added, never overflowing). -/
structure Reference (Id Verifier Sig : Type) where
  id : Id
  issuer : Verifier
  max_share : Nat
  certs : List (Certificate Verifier Sig)
deriving DecidableEq

/-- Modelled from the spec: the `SignMethod` trait that `reference.rs` is
generic over is not present under `src/` (`data/signature.rs` defines a
different `Method` trait and no `SignMethod`). Spec §4.2 requires of a
scheme `verifier_of(signer) → Verifier` (total), `sign(signer, msg) →
Signature`, `verify(verifier, msg, sig) → () | error`, plus fixed-width
byte encodings. Since `reference.rs` additionally treats signing and
payload serialization as fallible (`Error::Signature`, `Error::Serialize`),
those two are `Option`-valued here; `verify` is a boolean predicate;
`serCert` stands for `bincode::serialize` applied to a `CertData`
payload. -/
structure SignScheme (Id Signer Verifier Sig Msg : Type) where
  verifierOf : Signer → Verifier
  trySign : Signer → Msg → Option Sig
  verify : Verifier → Msg → Sig → Bool
  serCert : CertData Id Verifier Sig → Option Msg

/-- Rust `certs.iter().enumerate().find(p)`, as used by
`Reference::subset`, with `i` the index of the head of the remaining
list. -/
def findEnum {α : Type} (p : α → Bool) : Nat → List α → Option (Nat × α)
  | _, [] => none
  | i, x :: xs => if p x then some (i, x) else findEnum p (i + 1) xs

namespace Reference

variable {Id Signer Verifier Sig Msg : Type} [DecidableEq Verifier]

/-- Rust `Reference::cert_data`: build the canonical payload for a new
certificate, checking it against the last certificate when the chain is
non-empty. Note the source tests the capability-subset condition BEFORE
the issuer condition. -/
def cert_data (self : Reference Id Verifier Sig) (issuer : Verifier)
    (auth : Authorization Verifier) (last : Option (Certificate Verifier Sig)) :
    Except RefError (CertData Id Verifier Sig) :=
  match last with
  | none => .ok (.reference auth self.id self.issuer self.max_share)
  | some last =>
    if !(auth.capability.is_subset last.auth.capability) then
      .error .Capability
    else if issuer ≠ last.auth.subject then
      .error .Issuer
    else
      .ok (.signature auth last.signature)

/-- Rust `Reference::sign`; the `&mut self` mutation is state-passed, so
the result pairs the returned value with the post-call reference. -/
def sign (S : SignScheme Id Signer Verifier Sig Msg)
    (self : Reference Id Verifier Sig) (issuer : Signer)
    (auth : Authorization Verifier) :
    Except RefError Unit × Reference Id Verifier Sig :=
  if self.max_share + 1 ≤ self.certs.length then
    (.error .MaxShare, self)
  else
    match self.cert_data (S.verifierOf issuer) auth self.certs.getLast? with
    | .error err => (.error err, self)
    | .ok cd =>
      match S.serCert cd with
      | none => (.error .Serialize, self)
      | some buf =>
        match S.trySign issuer buf with
        | none => (.error .Signature, self)
        | some signature =>
          (.ok (), { self with certs := self.certs ++ [⟨auth, signature⟩] })

/-- Rust `Reference::subset`: truncate the chain just after the first
certificate whose subject is `subject`. -/
def subset (self : Reference Id Verifier Sig) (subject : Verifier) :
    Option (Reference Id Verifier Sig) :=
  match findEnum (fun c => decide (subject = c.auth.subject)) 0 self.certs with
  | some (i, _) => some { self with certs := self.certs.take (i + 1) }
  | none => none

/-- Rust `Reference::shrink`. -/
def shrink (S : SignScheme Id Signer Verifier Sig Msg)
    (self : Reference Id Verifier Sig) (signer : Signer) (subject : Verifier) :
    Option (Reference Id Verifier Sig) :=
  match self.certs.find? (fun c => decide (subject = c.auth.subject)) with
  | some cert =>
    match self.subset (S.verifierOf signer) with
    | some reference =>
      match reference.sign S signer cert.auth with
      | (.ok _, signed) => some signed
      | (.error _, _) => none
    | none => none
  | none => none

/-- Loop of `Reference::validate` ("Check certificates"): walks the chain
with the running `issuer` and `last` accumulators. -/
def validateChain (S : SignScheme Id Signer Verifier Sig Msg)
    (self : Reference Id Verifier Sig) :
    Verifier → Option (Certificate Verifier Sig) →
    List (Certificate Verifier Sig) → Except RefError Unit
  | _, _, [] => .ok ()
  | issuer, last, cert :: rest =>
    match self.cert_data issuer cert.auth last with
    | .error err => .error err
    | .ok cd =>
      match S.serCert cd with
      | none => .error .Serialize
      | some buf =>
        if S.verify issuer buf cert.signature then
          validateChain S self cert.auth.subject (some cert) rest
        else
          .error .Signature

/-- Rust `Reference::validate` (the `Validate` impl). -/
def validate (S : SignScheme Id Signer Verifier Sig Msg)
    (self : Reference Id Verifier Sig) (subject : Verifier) :
    Except RefError Unit :=
  if self.max_share + 1 < self.certs.length then
    .error .MaxShare
  else
    match self.certs.getLast? with
    | some cert =>
      if subject ≠ cert.auth.subject then .error .Subject
      else validateChain S self self.issuer none self.certs
    | none => .error .Empty

end Reference

/-! ## Length-prefixed framed codec (src/rpccaps/src/rpc/codec.rs) -/

/-- Fixed 8-byte little-endian encoding of a `u64`, as produced by
`bincode::serialize` for the frame size header (default bincode options:
fixed-width integers, little-endian); `header_size` is therefore always
8. -/
def u64le (n : Nat) : List Nat :=
  (List.range 8).map fun i => n / 256 ^ i % 256

/-- Inverse of `u64le`: `bincode::deserialize::<u64>` applied to the 8
header bytes. -/
def u64fromLe (bs : List Nat) : Nat :=
  bs.foldr (fun b acc => acc * 256 + b) 0

/-- Bincode serialization of the item type `T` (the `Serialize` and
`Deserialize` bounds of `BincodeCodec<T>`), kept abstract: `ser` yields an
item's byte encoding, `deser` parses an exact byte buffer. -/
structure ItemCodec (T : Type) where
  ser : T → List Nat
  deser : List Nat → Except Unit T

namespace BincodeCodec

/-- Rust `BincodeCodec::encode`: append the 8-byte size header and then
the body at the end of `dst`. -/
def encode {T : Type} (C : ItemCodec T) (item : T) (dst : List Nat) : List Nat :=
  dst ++ u64le (C.ser item).length ++ C.ser item

/-- Rust `BincodeCodec::decode`: the result pairs the decode outcome with
the buffer state after the call. Note the source `split_to`s the 8 header
bytes off `src` BEFORE it knows whether the full body is available. -/
def decode {T : Type} (C : ItemCodec T) (src : List Nat) :
    Except Unit (Option T) × List Nat :=
  if src.length < 8 then
    (.ok none, src)
  else
    let size := u64fromLe (src.take 8)
    let rest := src.drop 8
    if rest.length < size then
      (.ok none, rest)
    else
      match C.deser (rest.take size) with
      | .error err => (.error err, rest.drop size)
      | .ok item => (.ok (some item), rest.drop size)

end BincodeCodec

/-- Rust `Framed<T, C>` (codec.rs): the wrapped I/O plus the internal
buffer; the codec is passed explicitly to the operations. -/
structure Framed (T : Type) where
  inner : T
  buffer : List Nat

/-- Rust `Framed::into_inner`: returns the wrapped I/O only — the internal
`buffer` field is dropped on the floor. -/
def Framed.into_inner {T : Type} (f : Framed T) : T :=
  f.inner

/-- Rust `Framed::poll_next`, one ready step of the byte-level model: the
read delivers the next `n` bytes of the reader into the internal buffer,
then the codec's `decode` runs on the buffer, which keeps whatever
`decode` left unconsumed. The reader is modelled as the list of bytes not
yet read. -/
def Framed.pollNextStep {T : Type} (C : ItemCodec T)
    (f : Framed (List Nat)) (n : Nat) : Option T × Framed (List Nat) :=
  let inner := f.inner.drop n
  match BincodeCodec.decode C (f.buffer ++ f.inner.take n) with
  | (.ok (some item), rem) => (some item, ⟨inner, rem⟩)
  | (_, rem) => (none, ⟨inner, rem⟩)

/-! ## Dispatch engine (src/rpccaps/src/rpc/dispatch.rs) -/

/-- Rust `Dispatch::dispatch_stream`, id-peeling part, for a receiver
whose first read delivers `n` bytes: wrap the receiver in a fresh
`Framed`, pull one frame to obtain the handler id, then `into_inner` to
recover the reader that is handed (with the sink and context) to
`dispatch`. Returns the id and that reader. -/
def dispatch_stream {DId : Type} (C : ItemCodec DId) (receiver : List Nat)
    (n : Nat) : Option (DId × List Nat) :=
  match Framed.pollNextStep C ⟨receiver, []⟩ n with
  | (some id, f) => some (id, f.into_inner)
  | (none, _) => none

/-- Rust `Handler<D>`: the boxed handler function is abstracted as a value
of type `F`. -/
structure Handler (F : Type) where
  func : F
  once : Bool
deriving DecidableEq

/-- Error kinds used by the dispatch engine (src/error.rs `ErrorKind`; the
description string is dropped). -/
inductive ErrorKind where
  | Internal | NotFound | Codec | LimitReached | InvalidData
deriving DecidableEq, Repr

/-- Rust `BTreeMap::insert`: stores the value at the key, replacing and
returning any previous value. The map is modelled as an association list
with unique keys. -/
def mapInsert {K F : Type} [DecidableEq K] :
    List (K × F) → K → F → Option F × List (K × F)
  | [], k, f => (none, [(k, f)])
  | (k', f') :: rest, k, f =>
    if k = k' then (some f', (k, f) :: rest)
    else ((mapInsert rest k f).fst, (k', f') :: (mapInsert rest k f).snd)

/-- Rust `BTreeMap::get`. -/
def mapLookup {K F : Type} [DecidableEq K] :
    List (K × F) → K → Option F
  | [], _ => none
  | (k', f') :: rest, k => if k = k' then some f' else mapLookup rest k

namespace Dispatch

/-- Rust `Dispatch::add` (the write lock always succeeds in this
sequential model): builds the handler, inserts it into the map, and only
then reports a `NotFound` collision error if a handler was already
registered at `id`. -/
def add {K F : Type} [DecidableEq K] (handlers : List (K × Handler F))
    (id : K) (func : F) (once : Bool) :
    Except ErrorKind Unit × List (K × Handler F) :=
  match mapInsert handlers id { func := func, once := once } with
  | (none, handlers') => (.ok (), handlers')
  | (some _, handlers') => (.error .NotFound, handlers')

end Dispatch

/-! ## Concrete instances used by witnesses and counterexamples -/

/-- Trivial concrete signature scheme over `Nat` keys in which
verification always succeeds; it instantiates the abstract scheme for
concrete evaluations. -/
def natScheme : SignScheme Nat Nat Nat Nat Nat :=
  { verifierOf := fun s => s
    trySign := fun _ _ => some 0
    verify := fun _ _ _ => true
    serCert := fun _ => some 0 }

/-- Concrete item codec for `Nat` items: fixed 8-byte little-endian
encoding. -/
def natCodec : ItemCodec Nat :=
  { ser := u64le
    deser := fun bs => if bs.length = 8 then .ok (u64fromLe bs) else .error () }

/-- Concrete reference with a three-certificate chain `0 → 1 → 2 → 3`,
validating under `natScheme` for subject `3`. -/
def refThree : Reference Nat Nat Nat :=
  { id := 0, issuer := 0, max_share := 3,
    certs := [⟨⟨Capability.new 3 3, 1⟩, 0⟩,
              ⟨⟨Capability.new 3 3, 2⟩, 0⟩,
              ⟨⟨Capability.new 1 1, 3⟩, 0⟩] }

/-- Concrete reference whose single certificate grants a non-shareable
capability to subject `10`; input of the C2 counterexample. -/
def refOne : Reference Nat Nat Nat :=
  { id := 0, issuer := 0, max_share := 5,
    certs := [⟨⟨Capability.new 1 0, 10⟩, 0⟩] }

/-! ### Bitmask helper lemmas -/

/-- Predicate `SubBits x y`: every bit set in `x` is set in `y`, phrased as the
mask equation the source's comparisons reduce to. -/
def SubBits (x y : Nat) : Prop := y &&& x = x

theorem subBits_iff_testBit {x y : Nat} :
    SubBits x y ↔ ∀ i, x.testBit i = true → y.testBit i = true := by
  constructor
  · intro h i hi
    have := congrArg (fun n => n.testBit i) h
    simp only [Nat.testBit_land] at this
    cases hy : y.testBit i with
    | true => rfl
    | false => rw [hy, Bool.false_and] at this; rw [hi] at this; exact this.symm ▸ rfl
  · intro h
    apply Nat.eq_of_testBit_eq
    intro i
    simp only [Nat.testBit_land]
    cases hx : x.testBit i with
    | true => rw [h i hx, Bool.true_and]
    | false => rw [Bool.and_false]

theorem subBits_land_left {a b : Nat} : SubBits (a &&& b) a := by
  rw [subBits_iff_testBit]
  intro i hi
  simp only [Nat.testBit_land, Bool.and_eq_true] at hi
  exact hi.1

theorem subBits_land_right {a b : Nat} : SubBits (a &&& b) b := by
  rw [subBits_iff_testBit]
  intro i hi
  simp only [Nat.testBit_land, Bool.and_eq_true] at hi
  exact hi.2

theorem subBits_trans {x y z : Nat} (h1 : SubBits x y) (h2 : SubBits y z) :
    SubBits x z := by
  rw [subBits_iff_testBit] at *
  exact fun i hi => h2 i (h1 i hi)

/-- The source's comparison pattern `x - (m &&& x) == 0` says exactly
`SubBits x m`. -/
theorem sub_land_eq_zero_iff {x m : Nat} :
    (x - (m &&& x) == 0) = true ↔ SubBits x m := by
  rw [beq_iff_eq, Nat.sub_eq_zero_iff_le]
  constructor
  · intro h
    exact Nat.le_antisymm Nat.and_le_right h
  · intro h
    rw [h]

theorem is_subset_iff {b a : Capability} :
    b.is_subset a = true ↔
      SubBits b.actions (a.share &&& a.actions) ∧ SubBits b.share a.share := by
  unfold Capability.is_subset
  rw [Bool.and_eq_true, sub_land_eq_zero_iff, sub_land_eq_zero_iff]

theorem is_valid_iff {a : Capability} :
    a.is_valid = true ↔ SubBits a.share a.actions := by
  unfold Capability.is_valid SubBits
  rw [beq_iff_eq, Nat.land_comm]
  exact ⟨fun h => h.symm, fun h => h.symm⟩

/-! ## Claims C1 and C3: the capability algebra -/

/-- C1 (counterexample). The claim "for every pair of `Capability` values
`a`, `b` built by `Capability::new`, `(a & b).is_subset(a)` and
`(a & b).is_subset(b)`" fails at `a = new(1,1)`, `b = new(1,0)`:
the intersection has `actions = 1` which is not contained in
`b.share & b.actions = 0`, so `(a & b).is_subset(b)` is `false`. -/
theorem C1_intersect_subset_cex :
    ¬ ((((Capability.new 1 1).bitand (Capability.new 1 0)).is_subset
          (Capability.new 1 1) = true) ∧
       (((Capability.new 1 1).bitand (Capability.new 1 0)).is_subset
          (Capability.new 1 0) = true)) := by
  decide

/-- C1 (amended). For valid `a` (as produced by `Capability::new`) and any
`b`, the intersection `a & b` is always an `is_subset` of `a`; it is an
`is_subset` of `b` under the additional hypothesis that `b` shares every
action it allows (`b.share = b.actions`), which the counterexample shows
cannot be dropped. -/
theorem C1_intersect_subset (a b : Capability) (ha : a.is_valid = true) :
    (a.bitand b).is_subset a = true ∧
    (b.share = b.actions → (a.bitand b).is_subset b = true) := by
  have hval : SubBits a.share a.actions := is_valid_iff.mp ha
  have hc : (a.bitand b) =
      { actions := a.share &&& b.actions,
        share := a.share &&& (b.share &&& b.actions) } := rfl
  constructor
  · rw [hc, is_subset_iff]
    refine ⟨?_, subBits_land_left⟩
    rw [subBits_iff_testBit]
    intro i hi
    simp only [Nat.testBit_land, Bool.and_eq_true] at hi ⊢
    exact ⟨hi.1, (subBits_iff_testBit.mp hval) i hi.1⟩
  · intro hb
    rw [hc, is_subset_iff]
    constructor
    · rw [subBits_iff_testBit]
      intro i hi
      simp only [Nat.testBit_land, Bool.and_eq_true] at hi ⊢
      exact ⟨hb ▸ hi.2, hi.2⟩
    · rw [subBits_iff_testBit]
      intro i hi
      simp only [Nat.testBit_land, Bool.and_eq_true] at hi
      exact hi.2.1

/-- Witness for `C1_intersect_subset` at `a = new(3,3)`, `b = new(1,1)`. -/
theorem C1_intersect_subset_witness :
    ((Capability.new 3 3).bitand (Capability.new 1 1)).is_subset
      (Capability.new 3 3) = true ∧
    ((Capability.new 3 3).bitand (Capability.new 1 1)).is_subset
      (Capability.new 1 1) = true := by
  have h := C1_intersect_subset (Capability.new 3 3) (Capability.new 1 1) (by decide)
  exact ⟨h.1, h.2 (by decide)⟩

/-- C3 (code bug). The claim "every constructor or mutator of `Capability`
re-establishes `is_valid`" is broken by `subset_inplace`: starting from the
valid capability `new(1,1)` and calling `subset_inplace(0, 1)` leaves
`share = 1` while `actions = 0`, so `is_valid` is `false` afterwards —
`subset_inplace`, unlike `subset`, never masks the raw `share` argument by
`actions`. -/
theorem C3_subset_inplace_invalid :
    ((Capability.new 1 1).subset_inplace 0 1).is_valid = false := by
  decide

/-! ## Claim C2: error priority in `Reference::sign` -/

/-- C2 (counterexample). The claim says that with a non-empty chain, a
signer whose verifier differs from the last subject AND a capability that
is not a subset of the last capability yield `Issuer`. On `refOne` (last
subject `10`, capability `new(1,0)`), signing with signer `99` and
capability `new(1,1)` makes both conditions fail, yet the source returns
`Capability`: `cert_data` tests the capability condition first. -/
theorem C2_sign_error_priority_cex :
    (refOne.sign natScheme 99 ⟨Capability.new 1 1, 7⟩).fst
      = Except.error RefError.Capability ∧
    (refOne.sign natScheme 99 ⟨Capability.new 1 1, 7⟩).fst
      ≠ Except.error RefError.Issuer := by
  decide

/-- C2 (amended). `Reference::sign` checks MaxShare first, then the
capability-subset condition, then the issuer condition: whenever the chain
is non-empty, the length bound holds and the capability condition fails,
the returned error is `Capability` — regardless of whether the issuer
condition also fails. -/
theorem C2_sign_error_priority {Id Signer Verifier Sig Msg : Type}
    [DecidableEq Verifier]
    (S : SignScheme Id Signer Verifier Sig Msg)
    (r : Reference Id Verifier Sig) (signer : Signer)
    (auth : Authorization Verifier) (last : Certificate Verifier Sig)
    (hlen : r.certs.length < r.max_share + 1)
    (hlast : r.certs.getLast? = some last)
    (hcap : auth.capability.is_subset last.auth.capability = false) :
    (r.sign S signer auth).fst = Except.error RefError.Capability := by
  have hcd : r.cert_data (S.verifierOf signer) auth r.certs.getLast?
      = Except.error RefError.Capability := by
    rw [hlast]
    simp [Reference.cert_data, hcap]
  unfold Reference.sign
  rw [if_neg (by omega), hcd]

/-- Witness for `C2_sign_error_priority` on `refOne` with signer `10`. -/
theorem C2_sign_error_priority_witness :
    (refOne.sign natScheme 10 ⟨Capability.new 1 1, 7⟩).fst
      = Except.error RefError.Capability :=
  C2_sign_error_priority natScheme refOne 10 ⟨Capability.new 1 1, 7⟩
    ⟨⟨Capability.new 1 0, 10⟩, 0⟩ (by decide) (by decide) (by decide)

/-! ## Claim C8: `Reference::sign` is atomic on failure -/

/-- C8 (confirmed). If `Reference::sign` returns any error, the reference
is left exactly as it was: the certificate push only happens after every
check, the payload serialization and the signing have succeeded. -/
theorem C8_sign_atomic {Id Signer Verifier Sig Msg : Type}
    [DecidableEq Verifier]
    (S : SignScheme Id Signer Verifier Sig Msg)
    (r : Reference Id Verifier Sig) (signer : Signer)
    (auth : Authorization Verifier) (e : RefError)
    (h : (r.sign S signer auth).fst = Except.error e) :
    (r.sign S signer auth).snd = r := by
  unfold Reference.sign at h ⊢
  split
  · rfl
  · split
    · rfl
    · split
      · rfl
      · split
        · rfl
        · exfalso
          simp_all

/-- Witness for `C8_sign_atomic`: a failing sign on `refOne` leaves it
unchanged. -/
theorem C8_sign_atomic_witness :
    (refOne.sign natScheme 98 ⟨Capability.new 1 1, 8⟩).snd = refOne :=
  C8_sign_atomic natScheme refOne 98 ⟨Capability.new 1 1, 8⟩
    RefError.Capability (by decide)

/-! ## Claim C10: `Dispatch::add` collision still replaces -/

theorem mapInsert_fst {K F : Type} [DecidableEq K]
    (m : List (K × F)) (k : K) (f : F) :
    (mapInsert m k f).fst = mapLookup m k := by
  induction m with
  | nil => rfl
  | cons p rest ih =>
    obtain ⟨k', f'⟩ := p
    by_cases hk : k = k'
    · simp [mapInsert, mapLookup, hk]
    · simp [mapInsert, mapLookup, hk, ih]

theorem mapInsert_lookup {K F : Type} [DecidableEq K]
    (m : List (K × F)) (k : K) (f : F) :
    mapLookup (mapInsert m k f).snd k = some f := by
  induction m with
  | nil => simp [mapInsert, mapLookup]
  | cons p rest ih =>
    obtain ⟨k', f'⟩ := p
    by_cases hk : k = k'
    · simp [mapInsert, mapLookup, hk]
    · simp [mapInsert, mapLookup, hk, ih]

/-- C10 (confirmed). When a handler is already registered at `id`,
`Dispatch::add` returns the `NotFound` collision error, but the map
afterwards holds the NEW handler at `id`: `BTreeMap::insert` has already
replaced the old handler before the collision is reported. -/
theorem C10_add_collision_replaces {K F : Type} [DecidableEq K]
    (handlers : List (K × Handler F)) (id : K) (h0 : Handler F)
    (func : F) (once : Bool)
    (hmem : mapLookup handlers id = some h0) :
    (Dispatch.add handlers id func once).fst = Except.error ErrorKind.NotFound ∧
    mapLookup (Dispatch.add handlers id func once).snd id
      = some { func := func, once := once } := by
  have h1 := mapInsert_fst handlers id ({ func := func, once := once } : Handler F)
  have h2 := mapInsert_lookup handlers id ({ func := func, once := once } : Handler F)
  rw [hmem] at h1
  rcases hins : mapInsert handlers id ({ func := func, once := once } : Handler F)
    with ⟨old, m'⟩
  rw [hins] at h1 h2
  unfold Dispatch.add
  rw [hins]
  cases old with
  | none => simp at h1
  | some h' => exact ⟨rfl, h2⟩

/-- Witness for `C10_add_collision_replaces` on a one-entry map. -/
theorem C10_add_collision_replaces_witness :
    (Dispatch.add [(1, (⟨10, false⟩ : Handler Nat))] 1 20 true).fst
      = Except.error ErrorKind.NotFound ∧
    mapLookup (Dispatch.add [(1, (⟨10, false⟩ : Handler Nat))] 1 20 true).snd 1
      = some ⟨20, true⟩ :=
  C10_add_collision_replaces [(1, ⟨10, false⟩)] 1 ⟨10, false⟩ 20 true (by decide)

/-! ## Claims C4, C9, C5: the framed codec -/

theorem u64le_length (n : Nat) : (u64le n).length = 8 := by
  simp [u64le]

theorem u64fromLe_u64le (n : Nat) (h : n < 2 ^ 64) : u64fromLe (u64le n) = n := by
  simp [u64le, u64fromLe, List.range_succ]
  omega

/-- C4 (code bug). The decoder is NOT restartable: on a buffer holding
exactly the 8 header bytes of a frame (a strict prefix of the 16-byte
frame for item `5`), `decode` answers "need more" but has consumed all 8
bytes (the remaining buffer is empty), so feeding the remaining 8 body
bytes to the next `decode` call — which is what `Framed::poll_next` does
after the next read — misreads them as a new header and never yields the
item. -/
theorem C4_decode_not_restartable :
    BincodeCodec.decode natCodec ((BincodeCodec.encode natCodec 5 []).take 8)
      = (Except.ok none, []) ∧
    (BincodeCodec.encode natCodec 5 []).take 8 ≠ [] ∧
    (BincodeCodec.decode natCodec ((BincodeCodec.encode natCodec 5 []).drop 8)).fst
      = Except.ok none := by
  decide

/-- C9 (confirmed). Round-trip: encoding an item into an empty buffer and
decoding returns the item and consumes the whole frame; a single `decode`
call on a fresh buffer holding any strict prefix of the encoded frame
returns "need more" (`Ok(None)`), not an item and not an error. `hrt` is
bincode's round-trip property for the item type, `hlen` the `u64` size
bound on the body. -/
theorem C9_encode_decode_roundtrip {T : Type} (C : ItemCodec T) (x : T)
    (hrt : C.deser (C.ser x) = Except.ok x)
    (hlen : (C.ser x).length < 2 ^ 64) :
    BincodeCodec.decode C (BincodeCodec.encode C x [])
      = (Except.ok (some x), []) ∧
    (∀ k, k < (BincodeCodec.encode C x []).length →
      (BincodeCodec.decode C ((BincodeCodec.encode C x []).take k)).fst
        = Except.ok none) := by
  have henc : BincodeCodec.encode C x [] = u64le (C.ser x).length ++ C.ser x := by
    simp [BincodeCodec.encode]
  have hL8 : (u64le (C.ser x).length).length = 8 := u64le_length _
  have hlen' : (u64le (C.ser x).length ++ C.ser x).length = 8 + (C.ser x).length := by
    simp [hL8]
  have htake : (u64le (C.ser x).length ++ C.ser x).take 8 = u64le (C.ser x).length := by
    rw [← hL8]
    exact List.take_left _ _
  have hdrop : (u64le (C.ser x).length ++ C.ser x).drop 8 = C.ser x := by
    rw [← hL8]
    exact List.drop_left _ _
  rw [henc]
  constructor
  · unfold BincodeCodec.decode
    rw [if_neg (by rw [hlen']; omega)]
    rw [htake, hdrop, u64fromLe_u64le _ hlen]
    rw [if_neg (by omega)]
    rw [List.take_length, hrt, List.drop_length]
  · intro k hk
    rw [hlen'] at hk
    by_cases hk8 : k < 8
    · unfold BincodeCodec.decode
      rw [if_pos (by rw [List.length_take, hlen']; omega)]
    · have h1 : ((u64le (C.ser x).length ++ C.ser x).take k).length = k := by
        rw [List.length_take, hlen']
        omega
      have h2 : ((u64le (C.ser x).length ++ C.ser x).take k).take 8
          = u64le (C.ser x).length := by
        rw [List.take_take]
        have hmin : min 8 k = 8 := by omega
        rw [hmin, htake]
      have h3 : (((u64le (C.ser x).length ++ C.ser x).take k).drop 8).length = k - 8 := by
        rw [List.length_drop, h1]
      unfold BincodeCodec.decode
      rw [if_neg (by rw [h1]; omega)]
      rw [h2, u64fromLe_u64le _ hlen]
      rw [if_pos (by rw [h3]; omega)]

/-- Witness for `C9_encode_decode_roundtrip` at item `5` under `natCodec`,
with the strict prefix of the first 10 of the 16 frame bytes. -/
theorem C9_encode_decode_roundtrip_witness :
    BincodeCodec.decode natCodec (BincodeCodec.encode natCodec 5 [])
      = (Except.ok (some 5), []) ∧
    (BincodeCodec.decode natCodec ((BincodeCodec.encode natCodec 5 []).take 10)).fst
      = Except.ok none := by
  have h := C9_encode_decode_roundtrip natCodec 5 (by decide) (by decide)
  exact ⟨h.1, h.2 10 (by decide)⟩

/-- C5 (code bug). When the read that delivers the id frame also delivers
two further bytes `[99, 98]`, `dispatch_stream` hands the handler the
reader recovered by `into_inner`, which is empty — while the two tail
bytes are sitting in the `Framed` buffer that `into_inner` drops. The
bytes beyond the id frame are lost instead of being forwarded. -/
theorem C5_tail_bytes_lost :
    dispatch_stream natCodec (BincodeCodec.encode natCodec 7 [] ++ [99, 98]) 18
      = some (7, []) ∧
    (Framed.pollNextStep natCodec
        ⟨BincodeCodec.encode natCodec 7 [] ++ [99, 98], []⟩ 18).snd.buffer
      = [99, 98] := by
  decide

/-! ## Chain lemmas for claims C6 and C7 -/

theorem is_subset_trans {c b a : Capability}
    (h1 : c.is_subset b = true) (h2 : b.is_subset a = true) :
    c.is_subset a = true := by
  rw [is_subset_iff] at h1 h2 ⊢
  obtain ⟨h1a, h1s⟩ := h1
  obtain ⟨h2a, h2s⟩ := h2
  exact ⟨subBits_trans (subBits_trans h1a subBits_land_right) h2a,
         subBits_trans h1s h2s⟩

theorem findEnum_isSome {α : Type} {p : α → Bool} {l : List α} {y : α}
    (hy : y ∈ l) (hp : p y = true) :
    ∀ i0, (findEnum p i0 l).isSome = true := by
  induction l with
  | nil => cases hy
  | cons z zs ih =>
    intro i0
    by_cases hz : p z = true
    · simp [findEnum, hz]
    · rcases List.mem_cons.mp hy with hy' | hy'
      · subst hy'; exact absurd hp hz
      · simp only [findEnum, hz, if_neg, Bool.not_eq_true] at *
        simpa [hz] using ih hy' (i0 + 1)

theorem findEnum_spec {α : Type} {p : α → Bool} {l : List α} :
    ∀ {i0 i : Nat} {x : α}, findEnum p i0 l = some (i, x) →
      i0 ≤ i ∧ l[i - i0]? = some x ∧ p x = true := by
  induction l with
  | nil => intro i0 i x h; cases h
  | cons z zs ih =>
    intro i0 i x h
    unfold findEnum at h
    by_cases hz : p z = true
    · rw [if_pos hz] at h
      obtain ⟨rfl, rfl⟩ : i0 = i ∧ z = x := by
        cases h; exact ⟨rfl, rfl⟩
      simp [hz]
    · rw [if_neg hz] at h
      obtain ⟨h1, h2, h3⟩ := ih h
      refine ⟨by omega, ?_, h3⟩
      have hik : i - i0 = (i - (i0 + 1)) + 1 := by omega
      rw [hik, List.getElem?_cons_succ]
      exact h2

theorem find?_eq_findEnum_snd {α : Type} {p : α → Bool} {l : List α} :
    ∀ i0, l.find? p = (findEnum p i0 l).map Prod.snd := by
  induction l with
  | nil => intro i0; rfl
  | cons z zs ih =>
    intro i0
    by_cases hz : p z = true
    · simp [List.find?, findEnum, hz]
    · rw [Bool.not_eq_true] at hz
      simp only [List.find?, findEnum, hz]
      simpa using ih (i0 + 1)

theorem getLast?_take_of_getElem? {α : Type} {l : List α} {i : Nat} {x : α}
    (h : l[i]? = some x) : (l.take (i + 1)).getLast? = some x := by
  rcases List.getElem?_eq_some.mp h with ⟨hlt, _⟩
  have hlen : (l.take (i + 1)).length = i + 1 := by
    rw [List.length_take]
    omega
  rw [List.getLast?_eq_getElem?, hlen]
  simpa [List.getElem?_take] using h

namespace Reference

variable {Id Signer Verifier Sig Msg : Type} [DecidableEq Verifier]
variable {S : SignScheme Id Signer Verifier Sig Msg}
variable {r : Reference Id Verifier Sig}

theorem cert_data_certs_irrel (x : List (Certificate Verifier Sig))
    (issuer : Verifier) (auth : Authorization Verifier)
    (last : Option (Certificate Verifier Sig)) :
    Reference.cert_data { r with certs := x } issuer auth last
      = r.cert_data issuer auth last := rfl

theorem validateChain_certs_irrel (x : List (Certificate Verifier Sig)) :
    ∀ (l : List (Certificate Verifier Sig)) (issuer : Verifier)
      (last : Option (Certificate Verifier Sig)),
      Reference.validateChain S { r with certs := x } issuer last l
        = Reference.validateChain S r issuer last l := by
  intro l
  induction l with
  | nil => intro issuer last; rfl
  | cons c rest ih =>
    intro issuer last
    simp only [Reference.validateChain, cert_data_certs_irrel, ih]

theorem validateChain_cons_ok {issuer : Verifier}
    {last : Option (Certificate Verifier Sig)}
    {x : Certificate Verifier Sig} {rest : List (Certificate Verifier Sig)}
    (h : Reference.validateChain S r issuer last (x :: rest) = .ok ()) :
    ∃ cd buf, r.cert_data issuer x.auth last = .ok cd ∧
      S.serCert cd = some buf ∧
      S.verify issuer buf x.signature = true ∧
      Reference.validateChain S r x.auth.subject (some x) rest = .ok () := by
  simp only [Reference.validateChain] at h
  cases hcd : r.cert_data issuer x.auth last with
  | error err =>
    rw [hcd] at h
    simp at h
  | ok cd =>
    rw [hcd] at h
    replace h : (match S.serCert cd with
        | none => (Except.error RefError.Serialize : Except RefError Unit)
        | some buf =>
          if S.verify issuer buf x.signature = true
          then Reference.validateChain S r x.auth.subject (some x) rest
          else Except.error RefError.Signature) = Except.ok () := h
    cases hser : S.serCert cd with
    | none =>
      rw [hser] at h
      simp at h
    | some buf =>
      rw [hser] at h
      replace h : (if S.verify issuer buf x.signature = true
          then Reference.validateChain S r x.auth.subject (some x) rest
          else Except.error RefError.Signature) = Except.ok () := h
      cases hv : S.verify issuer buf x.signature with
      | false =>
        rw [hv] at h
        simp at h
      | true =>
        rw [hv, if_pos rfl] at h
        exact ⟨cd, buf, rfl, hser, hv, h⟩

theorem validateChain_cons_of {issuer : Verifier}
    {last : Option (Certificate Verifier Sig)}
    {x : Certificate Verifier Sig} {rest : List (Certificate Verifier Sig)}
    {cd : CertData Id Verifier Sig} {buf : Msg}
    (hcd : r.cert_data issuer x.auth last = .ok cd)
    (hser : S.serCert cd = some buf)
    (hv : S.verify issuer buf x.signature = true)
    (hrest : Reference.validateChain S r x.auth.subject (some x) rest = .ok ()) :
    Reference.validateChain S r issuer last (x :: rest) = .ok () := by
  simp only [Reference.validateChain]
  rw [hcd]
  show (match S.serCert cd with
      | none => (Except.error RefError.Serialize : Except RefError Unit)
      | some buf =>
        if S.verify issuer buf x.signature = true
        then Reference.validateChain S r x.auth.subject (some x) rest
        else Except.error RefError.Signature) = Except.ok ()
  rw [hser]
  show (if S.verify issuer buf x.signature = true
      then Reference.validateChain S r x.auth.subject (some x) rest
      else Except.error RefError.Signature) = Except.ok ()
  rw [hv, if_pos rfl]
  exact hrest

theorem validateChain_of_append {issuer : Verifier}
    {last : Option (Certificate Verifier Sig)}
    {l₁ l₂ : List (Certificate Verifier Sig)}
    (h : Reference.validateChain S r issuer last (l₁ ++ l₂) = .ok ()) :
    Reference.validateChain S r issuer last l₁ = .ok () := by
  induction l₁ generalizing issuer last with
  | nil => rfl
  | cons x rest ih =>
    rw [List.cons_append] at h
    obtain ⟨cd, buf, hcd, hser, hv, hrest⟩ := validateChain_cons_ok h
    exact validateChain_cons_of hcd hser hv (ih hrest)

theorem validateChain_append_getLast {issuer : Verifier}
    {last : Option (Certificate Verifier Sig)}
    {l₁ l₂ : List (Certificate Verifier Sig)} {c : Certificate Verifier Sig}
    (h : Reference.validateChain S r issuer last (l₁ ++ l₂) = .ok ())
    (hc : l₁.getLast? = some c) :
    Reference.validateChain S r c.auth.subject (some c) l₂ = .ok () := by
  induction l₁ generalizing issuer last with
  | nil => cases hc
  | cons x rest ih =>
    rw [List.cons_append] at h
    obtain ⟨cd, buf, hcd, hser, hv, hrest⟩ := validateChain_cons_ok h
    cases rest with
    | nil =>
      obtain rfl : x = c := by simpa using hc
      exact hrest
    | cons y ys =>
      exact ih hrest (by simpa [List.getLast?_cons_cons] using hc)

theorem validateChain_append_of {issuer : Verifier}
    {last : Option (Certificate Verifier Sig)}
    {l₁ l₂ : List (Certificate Verifier Sig)} {c : Certificate Verifier Sig}
    (h1 : Reference.validateChain S r issuer last l₁ = .ok ())
    (hc : l₁.getLast? = some c)
    (h2 : Reference.validateChain S r c.auth.subject (some c) l₂ = .ok ()) :
    Reference.validateChain S r issuer last (l₁ ++ l₂) = .ok () := by
  induction l₁ generalizing issuer last with
  | nil => cases hc
  | cons x rest ih =>
    rw [List.cons_append]
    obtain ⟨cd, buf, hcd, hser, hv, hrest⟩ := validateChain_cons_ok h1
    refine validateChain_cons_of hcd hser hv ?_
    cases rest with
    | nil =>
      obtain rfl : x = c := by simpa using hc
      exact h2
    | cons y ys =>
      exact ih hrest (by simpa [List.getLast?_cons_cons] using hc)

theorem validateChain_capability_le {c : Certificate Verifier Sig} :
    ∀ (l : List (Certificate Verifier Sig)) (issuer : Verifier),
      Reference.validateChain S r issuer (some c) l = .ok () →
      ∀ (j : Nat) (y : Certificate Verifier Sig), l[j]? = some y →
        y.auth.capability.is_subset c.auth.capability = true := by
  intro l
  induction l generalizing c with
  | nil => intro issuer _ j y hy; cases hy
  | cons x rest ih =>
    intro issuer h j y hy
    obtain ⟨cd, buf, hcd, hser, hv, hrest⟩ := validateChain_cons_ok h
    have hsub : x.auth.capability.is_subset c.auth.capability = true := by
      by_cases hs : x.auth.capability.is_subset c.auth.capability = true
      · exact hs
      · exfalso
        rw [Bool.not_eq_true] at hs
        have hne : r.cert_data issuer x.auth (some c)
            = Except.error RefError.Capability := by
          simp only [Reference.cert_data]
          rw [hs]
          rfl
        rw [hne] at hcd
        exact Except.noConfusion hcd
    cases j with
    | zero =>
      obtain rfl : x = y := by simpa using hy
      exact hsub
    | succ j' =>
      rw [List.getElem?_cons_succ] at hy
      exact is_subset_trans (ih x.auth.subject hrest j' y hy) hsub

end Reference

namespace Reference

variable {Id Signer Verifier Sig Msg : Type} [DecidableEq Verifier]
variable {S : SignScheme Id Signer Verifier Sig Msg}
variable {r : Reference Id Verifier Sig}

theorem validate_ok_parts {subject : Verifier}
    (h : r.validate S subject = .ok ()) :
    r.certs.length ≤ r.max_share + 1 ∧
    (∃ c, r.certs.getLast? = some c ∧ subject = c.auth.subject) ∧
    Reference.validateChain S r r.issuer none r.certs = .ok () := by
  unfold Reference.validate at h
  by_cases hms : r.max_share + 1 < r.certs.length
  · rw [if_pos hms] at h
    simp at h
  · rw [if_neg hms] at h
    cases hlast : r.certs.getLast? with
    | none =>
      rw [hlast] at h
      simp at h
    | some c =>
      rw [hlast] at h
      replace h : (if subject ≠ c.auth.subject
          then (Except.error RefError.Subject : Except RefError Unit)
          else Reference.validateChain S r r.issuer none r.certs)
          = Except.ok () := h
      by_cases hsub : subject ≠ c.auth.subject
      · rw [if_pos hsub] at h
        simp at h
      · rw [if_neg hsub] at h
        exact ⟨by omega, ⟨c, rfl, not_not.mp hsub⟩, h⟩

theorem validate_ok_of {subject : Verifier} {c : Certificate Verifier Sig}
    (hms : r.certs.length ≤ r.max_share + 1)
    (hlast : r.certs.getLast? = some c)
    (hsubj : subject = c.auth.subject)
    (hchain : Reference.validateChain S r r.issuer none r.certs = .ok ()) :
    r.validate S subject = .ok () := by
  unfold Reference.validate
  rw [if_neg (by omega), hlast]
  show (if subject ≠ c.auth.subject
      then (Except.error RefError.Subject : Except RefError Unit)
      else Reference.validateChain S r r.issuer none r.certs)
      = Except.ok ()
  rw [if_neg (not_not_intro hsubj)]
  exact hchain

end Reference

/-! ## Claim C6: `Reference::subset` validates for the chosen subject -/

/-- C6 (confirmed). If a reference validates (against its last subject)
and `s` occurs as the subject of some certificate of the chain, then
`subset(s)` returns a reference with the same `id`, `issuer` and
`max_share`, whose chain is the prefix up to the first certificate for
`s`, and that reference validates against `s`. -/
theorem C6_subset_validates {Id Signer Verifier Sig Msg : Type}
    [DecidableEq Verifier]
    (S : SignScheme Id Signer Verifier Sig Msg)
    (r : Reference Id Verifier Sig) (s0 s : Verifier)
    (hval : r.validate S s0 = Except.ok ())
    (hs : ∃ c ∈ r.certs, s = c.auth.subject) :
    ∃ r', r.subset s = some r' ∧ r'.id = r.id ∧ r'.issuer = r.issuer ∧
      r'.max_share = r.max_share ∧ r'.validate S s = Except.ok () := by
  obtain ⟨hms, ⟨clast, hlast, hs0⟩, hchain⟩ := Reference.validate_ok_parts hval
  obtain ⟨y, hy, hpy⟩ := hs
  have hfind := findEnum_isSome (p := fun c => decide (s = c.auth.subject))
    hy (by simpa using hpy) 0
  obtain ⟨⟨i, x⟩, hfx⟩ := Option.isSome_iff_exists.mp hfind
  obtain ⟨-, hgx, hpx⟩ := findEnum_spec hfx
  rw [Nat.sub_zero] at hgx
  have hsx : s = x.auth.subject := by simpa using hpx
  have hsubset : r.subset s = some { r with certs := r.certs.take (i + 1) } := by
    unfold Reference.subset
    rw [hfx]
  refine ⟨_, hsubset, rfl, rfl, rfl, ?_⟩
  have hlast' : (r.certs.take (i + 1)).getLast? = some x :=
    getLast?_take_of_getElem? hgx
  have hchain' : Reference.validateChain S { r with certs := r.certs.take (i + 1) }
      r.issuer none (r.certs.take (i + 1)) = .ok () := by
    rw [Reference.validateChain_certs_irrel]
    rw [← List.take_append_drop (i + 1) r.certs] at hchain
    exact Reference.validateChain_of_append hchain
  refine Reference.validate_ok_of ?_ hlast' hsx hchain'
  show (r.certs.take (i + 1)).length ≤ r.max_share + 1
  rw [List.length_take]
  omega

/-- Witness for `C6_subset_validates`: `refThree` validates for subject
`3`, and its subset at the middle subject `2` validates for `2`. -/
theorem C6_subset_validates_witness :
    ∃ r', refThree.subset 2 = some r' ∧ r'.id = refThree.id ∧
      r'.issuer = refThree.issuer ∧ r'.max_share = refThree.max_share ∧
      r'.validate natScheme 2 = Except.ok () :=
  C6_subset_validates natScheme refThree 3 2 (by decide) (by decide)

namespace Reference

variable {Id Signer Verifier Sig Msg : Type} [DecidableEq Verifier]
variable {S : SignScheme Id Signer Verifier Sig Msg}
variable {r : Reference Id Verifier Sig}

theorem sign_ok_of {signer : Signer} {auth : Authorization Verifier}
    {c : Certificate Verifier Sig} {cd : CertData Id Verifier Sig}
    {buf : Msg} {sg : Sig}
    (hlen : r.certs.length < r.max_share + 1)
    (hlast : r.certs.getLast? = some c)
    (hcd : r.cert_data (S.verifierOf signer) auth (some c) = .ok cd)
    (hser : S.serCert cd = some buf)
    (htry : S.trySign signer buf = some sg) :
    r.sign S signer auth
      = (Except.ok (), { r with certs := r.certs ++ [⟨auth, sg⟩] }) := by
  unfold Reference.sign
  rw [if_neg (by omega), hlast, hcd]
  show (match S.serCert cd with
      | none => ((Except.error RefError.Serialize : Except RefError Unit), r)
      | some buf =>
        match S.trySign signer buf with
        | none => (Except.error RefError.Signature, r)
        | some signature =>
          (Except.ok (), { r with certs := r.certs ++ [⟨auth, signature⟩] }))
      = (Except.ok (), { r with certs := r.certs ++ [⟨auth, sg⟩] })
  rw [hser]
  show (match S.trySign signer buf with
      | none => ((Except.error RefError.Signature : Except RefError Unit), r)
      | some signature =>
        (Except.ok (), { r with certs := r.certs ++ [⟨auth, signature⟩] }))
      = (Except.ok (), { r with certs := r.certs ++ [⟨auth, sg⟩] })
  rw [htry]

end Reference

/-! ## Claim C7: `Reference::shrink` preserves `max_share` and validates -/

/-- C7 (confirmed, with the occurrence positions read as the first
occurrences, which is what the source's `find` returns). If `r` validates,
the signer's public key first occurs as a subject at index `i`, the target
`subject` first occurs at index `j > i`, the prefix can still be extended
(`i + 1 < max_share + 1`), and the scheme can serialize, sign and then
verify its own signatures, then `shrink` returns a reference with the SAME
`max_share` (the bound is never loosened), whose last certificate's
subject is `subject`, and which validates against `subject`. -/
theorem C7_shrink_preserves_max_share {Id Signer Verifier Sig Msg : Type}
    [DecidableEq Verifier]
    (S : SignScheme Id Signer Verifier Sig Msg)
    (r : Reference Id Verifier Sig) (s0 : Verifier) (signer : Signer)
    (subject : Verifier) (i j : Nat) (ci cj : Certificate Verifier Sig)
    (hval : r.validate S s0 = Except.ok ())
    (hi : findEnum (fun c => decide (S.verifierOf signer = c.auth.subject)) 0 r.certs
          = some (i, ci))
    (hj : findEnum (fun c => decide (subject = c.auth.subject)) 0 r.certs
          = some (j, cj))
    (hij : i < j)
    (hms : i + 1 < r.max_share + 1)
    (hserAll : ∀ cd, (S.serCert cd).isSome = true)
    (hsigAll : ∀ m, (S.trySign signer m).isSome = true)
    (hcoh : ∀ m sg, S.trySign signer m = some sg →
        S.verify (S.verifierOf signer) m sg = true) :
    ∃ r', r.shrink S signer subject = some r' ∧
      r'.max_share = r.max_share ∧
      (∃ c, r'.certs.getLast? = some c ∧ c.auth.subject = subject) ∧
      r'.validate S subject = Except.ok () := by
  obtain ⟨hmslen, ⟨clast, hlastr, hs0⟩, hchain⟩ := Reference.validate_ok_parts hval
  obtain ⟨-, hgi, hpi⟩ := findEnum_spec hi
  rw [Nat.sub_zero] at hgi
  have hvs : S.verifierOf signer = ci.auth.subject := by simpa using hpi
  obtain ⟨-, hgj, hpj⟩ := findEnum_spec hj
  rw [Nat.sub_zero] at hgj
  have hsubj : subject = cj.auth.subject := by simpa using hpj
  have hilt : i < r.certs.length := by
    rcases List.getElem?_eq_some.mp hgi with ⟨h, -⟩
    exact h
  have hlen1 : (r.certs.take (i + 1)).length = i + 1 := by
    rw [List.length_take]
    omega
  have hlastp : (r.certs.take (i + 1)).getLast? = some ci :=
    getLast?_take_of_getElem? hgi
  -- split the validated chain at i + 1
  have hchain_split := hchain
  rw [← List.take_append_drop (i + 1) r.certs] at hchain_split
  have hprefok := Reference.validateChain_of_append hchain_split
  have hsuffix := Reference.validateChain_append_getLast hchain_split hlastp
  -- capability of cert j is a subset of capability of cert i
  have hdropj : (r.certs.drop (i + 1))[j - (i + 1)]? = some cj := by
    rw [List.getElem?_drop]
    have hji : i + 1 + (j - (i + 1)) = j := by omega
    rw [hji]
    exact hgj
  have hcapsub : cj.auth.capability.is_subset ci.auth.capability = true :=
    Reference.validateChain_capability_le _ _ hsuffix (j - (i + 1)) cj hdropj
  -- the pieces of the successful sign on the prefix
  have hcdlit : Reference.cert_data { r with certs := r.certs.take (i + 1) }
      (S.verifierOf signer) cj.auth (some ci)
      = Except.ok (CertData.signature cj.auth ci.signature) := by
    rw [Reference.cert_data_certs_irrel]
    simp only [Reference.cert_data]
    rw [hcapsub, hvs]
    simp
  obtain ⟨buf, hbuf⟩ := Option.isSome_iff_exists.mp
    (hserAll (CertData.signature cj.auth ci.signature))
  obtain ⟨sg, hsg⟩ := Option.isSome_iff_exists.mp (hsigAll buf)
  have hsignInst := Reference.sign_ok_of
    (r := { r with certs := r.certs.take (i + 1) })
    (by show (r.certs.take (i + 1)).length < r.max_share + 1; omega)
    hlastp hcdlit hbuf hsg
  -- the find and subset along shrink's path
  have hfind : r.certs.find? (fun c => decide (subject = c.auth.subject))
      = some cj := by
    rw [find?_eq_findEnum_snd 0, hj]
    rfl
  have hsubset : r.subset (S.verifierOf signer)
      = some { r with certs := r.certs.take (i + 1) } := by
    unfold Reference.subset
    rw [hi]
  have hshrink : r.shrink S signer subject
      = some { { r with certs := r.certs.take (i + 1) } with
               certs := (r.certs.take (i + 1)) ++ [⟨cj.auth, sg⟩] } := by
    unfold Reference.shrink
    rw [hfind]
    show (match r.subset (S.verifierOf signer) with
        | some reference =>
          match Reference.sign S reference signer cj.auth with
          | (Except.ok _, signed) => some signed
          | (Except.error _, _) => none
        | none => none)
      = some { { r with certs := r.certs.take (i + 1) } with
               certs := (r.certs.take (i + 1)) ++ [⟨cj.auth, sg⟩] }
    rw [hsubset]
    show (match Reference.sign S { r with certs := r.certs.take (i + 1) }
            signer cj.auth with
        | (Except.ok _, signed) => some signed
        | (Except.error _, _) => none)
      = some { { r with certs := r.certs.take (i + 1) } with
               certs := (r.certs.take (i + 1)) ++ [⟨cj.auth, sg⟩] }
    rw [hsignInst]
  -- the whole new chain validates
  have hnewstep : Reference.validateChain S r ci.auth.subject (some ci)
      [⟨cj.auth, sg⟩] = .ok () := by
    refine Reference.validateChain_cons_of ?_ hbuf ?_ rfl
    · simp only [Reference.cert_data]
      rw [hcapsub]
      simp
    · rw [← hvs]
      exact hcoh buf sg hsg
  have hchain2 : Reference.validateChain S r r.issuer none
      (r.certs.take (i + 1) ++ [⟨cj.auth, sg⟩]) = .ok () :=
    Reference.validateChain_append_of hprefok hlastp hnewstep
  -- assemble
  refine ⟨_, hshrink, rfl, ⟨⟨cj.auth, sg⟩, List.getLast?_concat _, hsubj.symm⟩, ?_⟩
  refine Reference.validate_ok_of (c := ⟨cj.auth, sg⟩) ?_ ?_ hsubj ?_
  · show (r.certs.take (i + 1) ++ [(⟨cj.auth, sg⟩ : Certificate Verifier Sig)]).length
      ≤ r.max_share + 1
    rw [List.length_append, hlen1]
    simp
    omega
  · exact List.getLast?_concat _
  · rw [Reference.validateChain_certs_irrel, Reference.validateChain_certs_irrel]
    exact hchain2

/-- Witness for `C7_shrink_preserves_max_share`: shrinking `refThree` from
the signer of the first certificate directly to the final subject `3`. -/
theorem C7_shrink_preserves_max_share_witness :
    ∃ r', refThree.shrink natScheme 1 3 = some r' ∧
      r'.max_share = refThree.max_share ∧
      (∃ c, r'.certs.getLast? = some c ∧ c.auth.subject = 3) ∧
      r'.validate natScheme 3 = Except.ok () :=
  C7_shrink_preserves_max_share natScheme refThree 3 1 3 0 2
    ⟨⟨Capability.new 3 3, 1⟩, 0⟩ ⟨⟨Capability.new 1 1, 3⟩, 0⟩
    (by decide) (by decide) (by decide) (by decide) (by decide)
    (fun _ => rfl) (fun _ => rfl) (fun _ _ _ => rfl)
